import Mathlib

/-!
Verification of the cloud-connectivity modules `aliyunIot.py` and `quecthing.py`
(QuecPython tracker `modules` repository) against their natural-language
specification.

The Python code is shallowly embedded: Python dicts become association lists
(insertion ordered, unique keys maintained by `dinsert`), machine integers are
`Nat`/`Int`, byte strings are `List Nat`, and the fallible paths return
`Option`.  Stateful methods are embedded as explicit state-passing functions.
Parts of the repository imported from `usr.modules.common` (`numiter`,
`CloudObjectModel`) are not under `src/`; where a claim depends on them they
are modelled from the specification and flagged as such in doc comments.
-/

/-! ## Decimal representation: `Nat.repr` is injective

`AliYunIot.__get_id` returns `str(msg_id)`; message-id distinctness claims
reduce to injectivity of the decimal string representation, proven here by
relating core's `Nat.toDigitsCore` to Mathlib's `Nat.digits`. -/

theorem toDigitsCore_eq_digits (f : Nat) : ∀ (n : Nat) (l : List Char), 0 < n → n < 10 ^ f →
    Nat.toDigitsCore 10 f n l = ((Nat.digits 10 n).map Nat.digitChar).reverse ++ l := by
  induction f with
  | zero =>
    intro n l hn hlt
    simp only [pow_zero, Nat.lt_one_iff] at hlt
    omega
  | succ f ih =>
    intro n l hn hlt
    rw [Nat.digits_def' (by norm_num : (1:Nat) < 10) hn]
    by_cases hdiv : n / 10 = 0
    · have hdig : Nat.digits 10 (n / 10) = [] := by rw [hdiv]; simp
      simp [Nat.toDigitsCore, hdiv, hdig]
    · have hdivpos : 0 < n / 10 := Nat.pos_of_ne_zero hdiv
      have hdivlt : n / 10 < 10 ^ f := by
        rw [Nat.div_lt_iff_lt_mul (by norm_num : (0:Nat) < 10)]
        calc n < 10 ^ (f + 1) := hlt
        _ = 10 ^ f * 10 := by ring
      have : Nat.toDigitsCore 10 (f + 1) n l =
          Nat.toDigitsCore 10 f (n / 10) (Nat.digitChar (n % 10) :: l) := by
        simp [Nat.toDigitsCore, hdiv]
      rw [this, ih (n / 10) (Nat.digitChar (n % 10) :: l) hdivpos hdivlt]
      simp

theorem natRepr_data_of_pos (n : Nat) (hn : 0 < n) :
    (Nat.repr n).data = ((Nat.digits 10 n).map Nat.digitChar).reverse := by
  have hlt : n < 10 ^ (n + 1) := by
    calc n < 10 ^ n := Nat.lt_pow_self (by norm_num) n
    _ ≤ 10 ^ (n + 1) := Nat.pow_le_pow_right (by norm_num) (Nat.le_succ n)
  show (Nat.toDigits 10 n).asString.data = _
  rw [Nat.toDigits, toDigitsCore_eq_digits (n + 1) n [] hn hlt]
  simp [List.asString]

theorem digitChar_inj_fin : ∀ a b : Fin 10,
    Nat.digitChar a.val = Nat.digitChar b.val → a = b := by decide

theorem digitChar_inj {a b : Nat} (ha : a < 10) (hb : b < 10)
    (h : Nat.digitChar a = Nat.digitChar b) : a = b := by
  have := digitChar_inj_fin ⟨a, ha⟩ ⟨b, hb⟩ h
  exact congrArg Fin.val this

theorem map_digitChar_inj : ∀ (L M : List Nat), (∀ x ∈ L, x < 10) → (∀ x ∈ M, x < 10) →
    L.map Nat.digitChar = M.map Nat.digitChar → L = M := by
  intro L
  induction L with
  | nil =>
    intro M _ _ h
    cases M with
    | nil => rfl
    | cons m ms => simp at h
  | cons a as ih =>
    intro M hL hM h
    cases M with
    | nil => simp at h
    | cons b bs =>
      simp only [List.map_cons, List.cons.injEq] at h
      have ha : a < 10 := hL a (List.mem_cons_self a as)
      have hb : b < 10 := hM b (List.mem_cons_self b bs)
      have hab : a = b := digitChar_inj ha hb h.1
      have htl : as = bs := by
        refine ih bs (fun x hx => hL x (List.mem_cons_of_mem a hx))
          (fun x hx => hM x (List.mem_cons_of_mem b hx)) h.2
      rw [hab, htl]

theorem natRepr_injective : Function.Injective Nat.repr := by
  intro n m h
  have hdata : (Nat.repr n).data = (Nat.repr m).data := congrArg String.data h
  rcases Nat.eq_zero_or_pos n with hn | hn
  · rcases Nat.eq_zero_or_pos m with hm | hm
    · rw [hn, hm]
    · exfalso
      rw [hn, natRepr_data_of_pos m hm] at hdata
      have h0 : (Nat.repr 0).data = ['0'] := rfl
      rw [h0] at hdata
      have hrev : (Nat.digits 10 m).map Nat.digitChar = ['0'] := by
        have := congrArg List.reverse hdata
        simpa using this.symm
      have hdig : Nat.digits 10 m = [0] := by
        refine map_digitChar_inj _ [0]
          (fun x hx => Nat.digits_lt_base (by norm_num) hx) (by simp) ?_
        simpa using hrev
      have := Nat.ofDigits_digits 10 m
      rw [hdig] at this
      simp [Nat.ofDigits] at this
      omega
  · rcases Nat.eq_zero_or_pos m with hm | hm
    · exfalso
      rw [hm, natRepr_data_of_pos n hn] at hdata
      have h0 : (Nat.repr 0).data = ['0'] := rfl
      rw [h0] at hdata
      have hrev : (Nat.digits 10 n).map Nat.digitChar = ['0'] := by
        have := congrArg List.reverse hdata
        simpa using this
      have hdig : Nat.digits 10 n = [0] := by
        refine map_digitChar_inj _ [0]
          (fun x hx => Nat.digits_lt_base (by norm_num) hx) (by simp) ?_
        simpa using hrev
      have := Nat.ofDigits_digits 10 n
      rw [hdig] at this
      simp [Nat.ofDigits] at this
      omega
    · rw [natRepr_data_of_pos n hn, natRepr_data_of_pos m hm] at hdata
      have hmap : (Nat.digits 10 n).map Nat.digitChar = (Nat.digits 10 m).map Nat.digitChar := by
        have := congrArg List.reverse hdata
        simpa using this
      have hdig : Nat.digits 10 n = Nat.digits 10 m := by
        refine map_digitChar_inj _ _
          (fun x hx => Nat.digits_lt_base (by norm_num) hx)
          (fun x hx => Nat.digits_lt_base (by norm_num) hx) hmap
      exact Nat.digits.injective 10 hdig

/-! ## Python dict model

Python dicts preserve insertion order and hold each key at most once.
`dinsert` overwrites in place or appends, `derase` removes the key,
`dlookup` returns the value when present. -/

def dlookup {K V : Type} [DecidableEq K] : List (K × V) → K → Option V
  | [], _ => none
  | (k, v) :: rest, key => if k = key then some v else dlookup rest key

def dinsert {K V : Type} [DecidableEq K] : List (K × V) → K → V → List (K × V)
  | [], key, val => [(key, val)]
  | (k, v) :: rest, key, val =>
    if k = key then (key, val) :: rest else (k, v) :: dinsert rest key val

def derase {K V : Type} [DecidableEq K] (l : List (K × V)) (key : K) : List (K × V) :=
  l.filter (fun kv => kv.1 ≠ key)

theorem dlookup_dinsert_self {K V : Type} [DecidableEq K]
    (l : List (K × V)) (k : K) (v : V) : dlookup (dinsert l k v) k = some v := by
  induction l with
  | nil => simp [dinsert, dlookup]
  | cons kv rest ih =>
    by_cases h : kv.1 = k
    · simp [dinsert, dlookup, h]
    · simp [dinsert, dlookup, h, ih]

theorem dlookup_dinsert_ne {K V : Type} [DecidableEq K]
    (l : List (K × V)) (k k0 : K) (v : V) (hne : k ≠ k0) :
    dlookup (dinsert l k v) k0 = dlookup l k0 := by
  induction l with
  | nil => simp [dinsert, dlookup, hne]
  | cons kv rest ih =>
    by_cases h : kv.1 = k
    · simp [dinsert, dlookup, h, hne]
    · by_cases h0 : kv.1 = k0
      · simp [dinsert, dlookup, h, h0, Ne.symm hne]
      · simp [dinsert, dlookup, h, h0, ih]

theorem derase_of_dlookup_none {K V : Type} [DecidableEq K]
    (l : List (K × V)) (k : K) (h : dlookup l k = none) : derase l k = l := by
  induction l with
  | nil => rfl
  | cons kv rest ih =>
    simp only [dlookup] at h
    by_cases hk : kv.1 = k
    · simp [hk] at h
    · simp only [dlookup, if_neg hk] at h
      simp [derase, List.filter, hk, ih h] at *
      exact ih h

theorem dinsert_of_dlookup_none {K V : Type} [DecidableEq K]
    (l : List (K × V)) (k : K) (v : V) (h : dlookup l k = none) :
    dinsert l k v = l ++ [(k, v)] := by
  induction l with
  | nil => rfl
  | cons kv rest ih =>
    simp only [dlookup] at h
    by_cases hk : kv.1 = k
    · simp [hk] at h
    · simp only [if_neg hk] at h
      cases kv with
      | mk k1 v1 =>
        simp only [dinsert]
        simp only at hk
        rw [if_neg hk, ih h]
        simp

/-! ## AliYunIot: message-id generation (`AliYunIot.__get_id`)

`__get_id` holds `self.__id_lock` while drawing from `self.__id_iter`, so
calls — concurrent or not — are serialized and the generator state advances
atomically; the sequential state-passing model below is therefore faithful.

Modelled from the spec: `numiter` lives in `usr.modules.common`, which is not
under `src/`.  Spec §4.2 describes the id source as "unique, monotonically
increasing ids" that are "fresh" and "never repeat within a connection
lifetime", so `numiter` is modelled as the stream of naturals from its
creation state; the `StopIteration` reset branch of `__get_id` is then
unreachable and does not appear in the model. -/

namespace AliYunIot

def numiter_next (s : Nat) : Nat × Nat := (s, s + 1)

def get_id (s : Nat) : String × Nat :=
  ((numiter_next s).1.repr, (numiter_next s).2)

def get_ids (s : Nat) : Nat → List String
  | 0 => []
  | n + 1 => (get_id s).1 :: get_ids (get_id s).2 n

theorem get_ids_eq_map_range (n : Nat) : ∀ s : Nat,
    get_ids s n = (List.range n).map (fun i => Nat.repr (s + i)) := by
  induction n with
  | zero => intro s; rfl
  | succ n ih =>
    intro s
    have hstep : get_ids s (n + 1) = Nat.repr s :: get_ids (s + 1) n := rfl
    rw [hstep, ih (s + 1), List.range_succ_eq_map]
    simp only [List.map_cons, List.map_map, Nat.add_zero]
    refine congrArg (List.cons (Nat.repr s)) ?_
    apply List.map_congr_left
    intro i _
    simp only [Function.comp, Nat.succ_eq_add_one]
    congr 1
    omega

end AliYunIot

/-- Claim C1: message ids issued by `AliYunIot.__get_id` never repeat within a
connection lifetime: for every start state and every number `N` of
(lock-serialized) calls on one instance, the `N` returned id strings are
pairwise distinct. -/
theorem C1_get_id_never_repeats (s N : Nat) : (AliYunIot.get_ids s N).Nodup := by
  rw [AliYunIot.get_ids_eq_map_range]
  refine List.Nodup.map ?_ (List.nodup_range _)
  intro a b hab
  have := natRepr_injective hab
  omega

/-! ## AliYunIot: pending-result map (`__put_post_res` / `__get_post_res`)

`self.__post_res` is a dict from message id to publish result.
`__get_post_res` polls `self.__post_res.get(msg_id)` every 50 ms; a 10 s
one-shot timer raises `self.__breack_flag`, upon which the loop stores
`False` under the id and breaks; afterwards the entry is popped and returned.
The poll loop is modelled with `fuel` = the number of polls that happen
before the timer flag is observed; the inbound callback is the only other
writer of the map, and the claim's hypothesis is that it never records a
result for this id, so the map seen by each poll is constant. -/

namespace AliYunIot

def put_post_res (m : List (String × Bool)) (msg_id : String) (res : Bool) :
    List (String × Bool) :=
  dinsert m msg_id res

def get_post_res_wait (m : List (String × Bool)) (msg_id : String) :
    Nat → List (String × Bool)
  | 0 =>
    match dlookup m msg_id with
    | some _ => m
    | none => dinsert m msg_id false
  | fuel + 1 =>
    match dlookup m msg_id with
    | some _ => m
    | none => get_post_res_wait m msg_id fuel

def get_post_res (m : List (String × Bool)) (msg_id : String) (fuel : Nat) :
    Bool × List (String × Bool) :=
  let m1 := get_post_res_wait m msg_id fuel
  ((dlookup m1 msg_id).getD false, derase m1 msg_id)

theorem get_post_res_wait_of_none (m : List (String × Bool)) (msg_id : String)
    (h : dlookup m msg_id = none) :
    ∀ fuel, get_post_res_wait m msg_id fuel = dinsert m msg_id false := by
  intro fuel
  induction fuel with
  | zero => simp [get_post_res_wait, h]
  | succ fuel ih => simp [get_post_res_wait, h, ih]

theorem derase_append (K V : Type) [DecidableEq K] (l1 l2 : List (K × V)) (k : K) :
    derase (l1 ++ l2) k = derase l1 k ++ derase l2 k :=
  List.filter_append _ _

end AliYunIot

/-- Claim C3: for every message id, if no result is ever recorded for that id
before the timeout flag is raised, `AliYunIot.__get_post_res(msg_id)` returns
`False` and removes the id from the pending-result map, leaving no
bookkeeping for that id afterward (the map is exactly as it was before the
call, and in particular holds nothing under the id). -/
theorem C3_get_post_res_timeout (m : List (String × Bool)) (msg_id : String) (fuel : Nat)
    (h : dlookup m msg_id = none) :
    (AliYunIot.get_post_res m msg_id fuel).1 = false ∧
    (AliYunIot.get_post_res m msg_id fuel).2 = m ∧
    dlookup (AliYunIot.get_post_res m msg_id fuel).2 msg_id = none := by
  have hwait := AliYunIot.get_post_res_wait_of_none m msg_id h fuel
  have h1 : (AliYunIot.get_post_res m msg_id fuel).1 = false := by
    simp [AliYunIot.get_post_res, hwait, dlookup_dinsert_self]
  have h2 : (AliYunIot.get_post_res m msg_id fuel).2 = m := by
    simp only [AliYunIot.get_post_res, hwait]
    rw [dinsert_of_dlookup_none m msg_id false h, AliYunIot.derase_append]
    rw [derase_of_dlookup_none m msg_id h]
    simp [derase, List.filter]
  exact ⟨h1, h2, by rw [h2]; exact h⟩

/-- Witness for C3 at a concrete pending-result map holding an unrelated id. -/
theorem C3_witness :
    (AliYunIot.get_post_res [("1", true)] "2" 3).1 = false ∧
    (AliYunIot.get_post_res [("1", true)] "2" 3).2 = [("1", true)] ∧
    dlookup (AliYunIot.get_post_res [("1", true)] "2" 3).2 "2" = none :=
  C3_get_post_res_timeout [("1", true)] "2" 3 rfl

/-! ## QuecThing: pending-result buffer (`QuecThing.__put_post_res`)

`self.__post_result_wait_queue` is a `Queue(maxsize=16)`; the `queue` module
is not under `src/` and is modelled (per spec §4.2: a fixed-capacity FIFO)
as a list whose head is the oldest entry: `put` appends, `get` removes the
head.  `__put_post_res` first calls `get()` when `size() >= 16`, then `put`s
the new result. -/

namespace QuecThing

def put_post_res (q : List Bool) (res : Bool) : List Bool :=
  (if 16 ≤ q.length then q.drop 1 else q) ++ [res]

end QuecThing

/-- Claim C2: the pending-result buffer holds at most 16 entries at all
times: `__put_post_res` preserves the bound 16, and on a buffer already
holding 16 entries it first removes the oldest entry (the FIFO head) and
then appends the new one, so the evicted oldest result is no longer in the
buffer. -/
theorem C2_put_post_res_bound (q : List Bool) (res : Bool) (h : q.length ≤ 16) :
    (QuecThing.put_post_res q res).length ≤ 16 ∧
    (q.length = 16 → QuecThing.put_post_res q res = q.tail ++ [res]) := by
  constructor
  · by_cases h16 : 16 ≤ q.length
    · simp [QuecThing.put_post_res, h16]
      omega
    · simp [QuecThing.put_post_res, h16]
      omega
  · intro h16
    have : (16 : Nat) ≤ q.length := by omega
    simp [QuecThing.put_post_res, this, List.drop_one]

/-- Witness for C2 at a concrete full buffer of 16 entries. -/
theorem C2_witness :
    (QuecThing.put_post_res (List.replicate 16 true) false).length ≤ 16 ∧
    ((List.replicate 16 true).length = 16 →
      QuecThing.put_post_res (List.replicate 16 true) false =
        (List.replicate 16 true).tail ++ [false]) :=
  C2_put_post_res_bound (List.replicate 16 true) false (by simp)

/-! ## Python values and the QuecThing object model

`Value` models the Python values carried through the object-model codec:
numbers, strings, dicts, lists, `None`, booleans.  `QuecOMItem` models one
entry of `QuecObjectModel.items["events"|"properties"]`: its numeric wire
`id`, its permission string, and `struct_info` mapping each nested sub-key
to the sub-field's numeric wire id (the `"id"` field of the nested dict). -/

inductive Value where
  | num (n : Int)
  | str (s : String)
  | dict (fields : List (String × Value))
  | list (vs : List Value)
  | pynone
  | bool (b : Bool)

structure QuecOMItem where
  id : Nat
  perm : String
  struct_info : List (String × Nat)
deriving DecidableEq

inductive Dom where
  | events
  | properties
deriving DecidableEq

structure QuecOM where
  events : List (String × QuecOMItem)
  properties : List (String × QuecOMItem)
  items_id : List (Nat × String)
deriving DecidableEq

def QuecOM.empty : QuecOM := ⟨[], [], []⟩

/-! Wire-side keys of `QuecThing.__data_format`: the translated dict `nv`
mixes numeric keys (registered sub-fields, `nv[struct_info[ik]["id"]]`) with
string keys passed through unchanged (`nv[ik]`); Python never identifies an
`int` key with a `str` key, hence a sum type. -/

inductive WKey where
  | num (n : Nat)
  | str (s : String)
deriving DecidableEq

inductive WireVal where
  | raw (v : Value)
  | obj (fields : List (WKey × Value))

namespace QuecThing

def wkey_of (struct_info : List (String × Nat)) (ik : String) : WKey :=
  match dlookup struct_info ik with
  | some fid => WKey.num fid
  | none => WKey.str ik

def wire_of (struct_info : List (String × Nat)) (v : Value) : WireVal :=
  match v with
  | Value.dict fields =>
    WireVal.obj (fields.foldl (fun nv p => dinsert nv (wkey_of struct_info p.1) p.2) [])
  | _ => WireVal.raw v

def data_format (om : QuecOM) (k : String) (v : Value) : Option (Nat × WireVal) :=
  match dlookup om.events k with
  | some it => some (it.id, wire_of it.struct_info v)
  | none =>
    match dlookup om.properties k with
    | some it => some (it.id, wire_of it.struct_info v)
    | none => none

end QuecThing

theorem dlookup_eq_none_of_not_mem {K V : Type} [DecidableEq K] :
    ∀ (l : List (K × V)) (k : K), k ∉ l.map Prod.fst → dlookup l k = none := by
  intro l
  induction l with
  | nil => intro k _; rfl
  | cons kv rest ih =>
    intro k hk
    simp only [List.map_cons, List.mem_cons] at hk
    push_neg at hk
    simp [dlookup, Ne.symm hk.1, ih k hk.2]

theorem foldl_dinsert_of_nodup {K V : Type} [DecidableEq K] :
    ∀ (l acc : List (K × V)), (((acc ++ l).map Prod.fst).Nodup) →
      l.foldl (fun a p => dinsert a p.1 p.2) acc = acc ++ l := by
  intro l
  induction l with
  | nil => intro acc _; simp
  | cons p rest ih =>
    intro acc hnd
    have hmem : p.1 ∉ acc.map Prod.fst := by
      intro hmem
      rw [List.map_append] at hnd
      have hdisj := List.disjoint_of_nodup_append hnd
      exact hdisj hmem (by simp)
    have hstep : dinsert acc p.1 p.2 = acc ++ [p] := by
      rw [dinsert_of_dlookup_none acc p.1 p.2 (dlookup_eq_none_of_not_mem acc p.1 hmem)]
    have hnd2 : (((acc ++ [p]) ++ rest).map Prod.fst).Nodup := by
      simpa using hnd
    calc (p :: rest).foldl (fun a q => dinsert a q.1 q.2) acc
        = rest.foldl (fun a q => dinsert a q.1 q.2) (dinsert acc p.1 p.2) := rfl
      _ = rest.foldl (fun a q => dinsert a q.1 q.2) (acc ++ [p]) := by rw [hstep]
      _ = (acc ++ [p]) ++ rest := ih (acc ++ [p]) hnd2
      _ = acc ++ p :: rest := by simp

/-- Claim C5: `QuecThing.__data_format(k, v)` returns the unknown-key failure
value (Python `False`, modelled `none`) exactly when `k` is declared in
neither the events nor the properties domain; otherwise it returns a wire map
keyed by k's numeric wire id, and when `v` is a dictionary every sub-key with
a registered nested-field mapping is replaced by its numeric field wire id
while every unregistered sub-key passes through unchanged with its value
(elementwise, provided the translated keys do not collide). -/
theorem C5_data_format (om : QuecOM) (k : String) :
    (∀ v, dlookup om.events k = none → dlookup om.properties k = none →
      QuecThing.data_format om k v = none) ∧
    (∀ it v, (dlookup om.events k = some it ∨
        (dlookup om.events k = none ∧ dlookup om.properties k = some it)) →
      QuecThing.data_format om k v = some (it.id, QuecThing.wire_of it.struct_info v) ∧
      (∀ fields, v = Value.dict fields →
        (fields.map (fun p => QuecThing.wkey_of it.struct_info p.1)).Nodup →
        QuecThing.wire_of it.struct_info v =
          WireVal.obj (fields.map (fun p => (QuecThing.wkey_of it.struct_info p.1, p.2)))) ∧
      (∀ n, v = Value.num n → QuecThing.wire_of it.struct_info v = WireVal.raw v) ∧
      (∀ s, v = Value.str s → QuecThing.wire_of it.struct_info v = WireVal.raw v)) := by
  constructor
  · intro v he hp
    simp [QuecThing.data_format, he, hp]
  · intro it v hit
    have hfmt : QuecThing.data_format om k v = some (it.id, QuecThing.wire_of it.struct_info v) := by
      rcases hit with h | ⟨he, hp⟩
      · simp [QuecThing.data_format, h]
      · simp [QuecThing.data_format, he, hp]
    refine ⟨hfmt, ?_, ?_, ?_⟩
    · intro fields hv hnd
      subst hv
      simp only [QuecThing.wire_of]
      congr 1
      have hnodup : ((([] : List (WKey × Value)) ++
          fields.map (fun p => (QuecThing.wkey_of it.struct_info p.1, p.2))).map Prod.fst).Nodup := by
        simpa [List.map_map, Function.comp] using hnd
      have hfold := foldl_dinsert_of_nodup
        (fields.map (fun p => (QuecThing.wkey_of it.struct_info p.1, p.2))) [] hnodup
      have hfm : List.foldl (fun nv p => dinsert nv (QuecThing.wkey_of it.struct_info p.1) p.2)
          ([] : List (WKey × Value)) fields =
          List.foldl (fun a p => dinsert a p.1 p.2) []
            (fields.map (fun p => (QuecThing.wkey_of it.struct_info p.1, p.2))) :=
        (List.foldl_map (fun p => (QuecThing.wkey_of it.struct_info p.1, p.2))
          (fun a p => dinsert a p.1 p.2) fields []).symm
      rw [hfm, hfold]
      simp
    · intro n hv; subst hv; rfl
    · intro s hv; subst hv; rfl

/-- Witness for C5 on a concrete object model: an event with one registered
nested field (the docstring example `sos_alert` / `local_time`), an extra
unregistered sub-key passing through, and an unknown key mapping to the
failure value. -/
theorem C5_witness :
    QuecThing.data_format
        ⟨[("sos_alert", ⟨6, "", [("local_time", 19)]⟩)], [("energy", ⟨4, "r", []⟩)], []⟩
        "sos_alert" (Value.dict [("local_time", Value.num 164), ("other", Value.str "x")]) =
      some (6, WireVal.obj [(WKey.num 19, Value.num 164), (WKey.str "other", Value.str "x")]) ∧
    QuecThing.data_format
        ⟨[("sos_alert", ⟨6, "", [("local_time", 19)]⟩)], [("energy", ⟨4, "r", []⟩)], []⟩
        "unknown" (Value.num 1) = none := by
  constructor
  · have h := (C5_data_format
      ⟨[("sos_alert", ⟨6, "", [("local_time", 19)]⟩)], [("energy", ⟨4, "r", []⟩)], []⟩
      "sos_alert").2 ⟨6, "", [("local_time", 19)]⟩
      (Value.dict [("local_time", Value.num 164), ("other", Value.str "x")])
      (Or.inl rfl)
    have hobj := h.2.1 [("local_time", Value.num 164), ("other", Value.str "x")] rfl (by
      simp [QuecThing.wkey_of, dlookup])
    rw [h.1, hobj]
    rfl
  · exact (C5_data_format _ "unknown").1 (Value.num 1) rfl rfl

/-! ## QuecObjectModel registration (`set_item` / `__set_items_id`)

`QuecObjectModel.set_item` (src/quecthing.py) calls the parent
`CloudObjectModel.set_item` and then `__set_items_id`, which records the
reverse mapping `items_id[om_key_id] = om_key`.

Modelled from the spec: `CloudObjectModel.set_item` lives in
`usr.modules.common`, which is not under `src/`.  Spec §4.1 `register`:
"insert/overwrite; last write wins (no strict-mode duplicate error by
default)", so the parent call always succeeds and upserts the item into the
chosen domain with an empty nested-field table. -/

namespace QuecObjectModel

def set_items_id (om : QuecOM) (om_key : String) (om_key_id : Nat) : QuecOM :=
  { om with items_id := dinsert om.items_id om_key_id om_key }

def set_item (om : QuecOM) (om_type : Dom) (om_key : String) (om_key_id : Nat)
    (om_key_perm : String) : QuecOM :=
  let om1 :=
    match om_type with
    | Dom.events =>
      { om with events := dinsert om.events om_key ⟨om_key_id, om_key_perm, []⟩ }
    | Dom.properties =>
      { om with properties := dinsert om.properties om_key ⟨om_key_id, om_key_perm, []⟩ }
  set_items_id om1 om_key om_key_id

end QuecObjectModel

structure Reg where
  dom : Dom
  key : String
  id : Nat
  perm : String
deriving DecidableEq

def apply_regs (om : QuecOM) : List Reg → QuecOM
  | [] => om
  | r :: rest => apply_regs (QuecObjectModel.set_item om r.dom r.key r.id r.perm) rest

theorem apply_regs_append (xs ys : List Reg) : ∀ om : QuecOM,
    apply_regs om (xs ++ ys) = apply_regs (apply_regs om xs) ys := by
  induction xs with
  | nil => intro om; rfl
  | cons x rest ih =>
    intro om
    show apply_regs (QuecObjectModel.set_item om x.dom x.key x.id x.perm) (rest ++ ys) =
      apply_regs (apply_regs (QuecObjectModel.set_item om x.dom x.key x.id x.perm) rest) ys
    exact ih _

theorem set_item_lookup_ne (om : QuecOM) (d : Dom) (k1 : String) (i1 : Nat) (p1 : String)
    (k : String) (i : Nat) (hk : k1 ≠ k) (hi : i1 ≠ i) :
    dlookup (QuecObjectModel.set_item om d k1 i1 p1).events k = dlookup om.events k ∧
    dlookup (QuecObjectModel.set_item om d k1 i1 p1).properties k = dlookup om.properties k ∧
    dlookup (QuecObjectModel.set_item om d k1 i1 p1).items_id i = dlookup om.items_id i := by
  cases d with
  | events =>
    exact ⟨dlookup_dinsert_ne om.events k1 k _ hk, rfl,
      dlookup_dinsert_ne om.items_id i1 i _ hi⟩
  | properties =>
    exact ⟨rfl, dlookup_dinsert_ne om.properties k1 k _ hk,
      dlookup_dinsert_ne om.items_id i1 i _ hi⟩

theorem apply_regs_preserves (k : String) (i : Nat) :
    ∀ (rs : List Reg) (om : QuecOM), (∀ x ∈ rs, x.key ≠ k) → (∀ x ∈ rs, x.id ≠ i) →
    dlookup (apply_regs om rs).events k = dlookup om.events k ∧
    dlookup (apply_regs om rs).properties k = dlookup om.properties k ∧
    dlookup (apply_regs om rs).items_id i = dlookup om.items_id i := by
  intro rs
  induction rs with
  | nil => intro om _ _; exact ⟨rfl, rfl, rfl⟩
  | cons x rest ih =>
    intro om hk hi
    have hx := set_item_lookup_ne om x.dom x.key x.id x.perm k i
      (hk x (List.mem_cons_self x rest)) (hi x (List.mem_cons_self x rest))
    have hrest := ih (QuecObjectModel.set_item om x.dom x.key x.id x.perm)
      (fun y hy => hk y (List.mem_cons_of_mem x hy))
      (fun y hy => hi y (List.mem_cons_of_mem x hy))
    exact ⟨hrest.1.trans hx.1, hrest.2.1.trans hx.2.1, hrest.2.2.trans hx.2.2⟩

/-- Counterexample to claim C6 as stated: with two registered triples sharing
the wire id 1 — `("properties", "a", 1)` then `("events", "b", 1)` — the
second `__set_items_id` overwrites `items_id[1]`, so encoding the still
registered key `"a"` to its wire id 1 and reverse-looking 1 up through
`items_id` yields `"b"`, not the original key `"a"`. -/
theorem C6_counterexample :
    dlookup (apply_regs QuecOM.empty
      [⟨Dom.properties, "a", 1, "r"⟩, ⟨Dom.events, "b", 1, "r"⟩]).properties "a" =
      some ⟨1, "r", []⟩ ∧
    QuecThing.data_format (apply_regs QuecOM.empty
      [⟨Dom.properties, "a", 1, "r"⟩, ⟨Dom.events, "b", 1, "r"⟩]) "a" (Value.num 0) =
      some (1, WireVal.raw (Value.num 0)) ∧
    dlookup (apply_regs QuecOM.empty
      [⟨Dom.properties, "a", 1, "r"⟩, ⟨Dom.events, "b", 1, "r"⟩]).items_id 1 = some "b" ∧
    ("b" : String) ≠ "a" := by
  refine ⟨rfl, rfl, rfl, ?_⟩
  decide

/-- Claim C6 amended: for every triple (domain, key, wireId) registered in
the QuecObjectModel, provided no two registrations share a semantic key and
no two registrations share a wire id, encoding the key through
`QuecThing.__data_format` yields its wire id, and reverse-looking that wire
id up through `items_id` yields the original key. -/
theorem C6_roundtrip (regs : List Reg) (r : Reg) (v : Value)
    (hkeys : (regs.map Reg.key).Nodup)
    (hids : (regs.map Reg.id).Nodup)
    (hmem : r ∈ regs) :
    (∃ w, QuecThing.data_format (apply_regs QuecOM.empty regs) r.key v = some (r.id, w)) ∧
    dlookup (apply_regs QuecOM.empty regs).items_id r.id = some r.key := by
  obtain ⟨l1, l2, rfl⟩ := List.append_of_mem hmem
  rw [List.map_append, List.map_cons] at hkeys hids
  have hk1 : ∀ x ∈ l1, x.key ≠ r.key := by
    intro x hx
    have hdisj := List.disjoint_of_nodup_append hkeys
    intro he
    exact hdisj (List.mem_map_of_mem Reg.key hx) (by rw [← he] at *; exact List.mem_cons_self _ _) |>.elim
  have hi1 : ∀ x ∈ l1, x.id ≠ r.id := by
    intro x hx
    have hdisj := List.disjoint_of_nodup_append hids
    intro he
    exact hdisj (List.mem_map_of_mem Reg.id hx) (by rw [← he] at *; exact List.mem_cons_self _ _) |>.elim
  have hk2 : ∀ x ∈ l2, x.key ≠ r.key := by
    intro x hx he
    have hnd2 := (List.nodup_append.mp hkeys).2.1
    rw [List.nodup_cons] at hnd2
    exact hnd2.1 (he ▸ List.mem_map_of_mem Reg.key hx)
  have hi2 : ∀ x ∈ l2, x.id ≠ r.id := by
    intro x hx he
    have hnd2 := (List.nodup_append.mp hids).2.1
    rw [List.nodup_cons] at hnd2
    exact hnd2.1 (he ▸ List.mem_map_of_mem Reg.id hx)
  rw [apply_regs_append l1 (r :: l2) QuecOM.empty]
  have hmid : apply_regs (apply_regs QuecOM.empty l1) (r :: l2) =
      apply_regs (QuecObjectModel.set_item (apply_regs QuecOM.empty l1)
        r.dom r.key r.id r.perm) l2 := rfl
  rw [hmid]
  set om1 := QuecObjectModel.set_item (apply_regs QuecOM.empty l1) r.dom r.key r.id r.perm with hom1
  have hpres := apply_regs_preserves r.key r.id l2 om1 hk2 hi2
  have hl1 := apply_regs_preserves r.key r.id l1 QuecOM.empty hk1 hi1
  have hids_self : dlookup om1.items_id r.id = some r.key := by
    rw [hom1]
    cases r.dom with
    | events => exact dlookup_dinsert_self _ r.id r.key
    | properties => exact dlookup_dinsert_self _ r.id r.key
  refine ⟨?_, hpres.2.2.trans hids_self⟩
  cases hdom : r.dom with
  | events =>
    have hev : dlookup om1.events r.key = some ⟨r.id, r.perm, []⟩ := by
      rw [hom1, hdom]
      exact dlookup_dinsert_self _ r.key _
    refine ⟨QuecThing.wire_of (⟨r.id, r.perm, []⟩ : QuecOMItem).struct_info v, ?_⟩
    simp [QuecThing.data_format, hpres.1.trans hev]
  | properties =>
    have hev : dlookup om1.events r.key = none := by
      rw [hom1, hdom]
      exact hl1.1.trans rfl
    have hpr : dlookup om1.properties r.key = some ⟨r.id, r.perm, []⟩ := by
      rw [hom1, hdom]
      exact dlookup_dinsert_self _ r.key _
    refine ⟨QuecThing.wire_of (⟨r.id, r.perm, []⟩ : QuecOMItem).struct_info v, ?_⟩
    simp [QuecThing.data_format, hpres.1.trans hev, hpres.2.1.trans hpr]

/-- Witness for the amended C6 on a concrete two-entry registration with
distinct keys and distinct wire ids. -/
theorem C6_witness :
    (∃ w, QuecThing.data_format (apply_regs QuecOM.empty
        [⟨Dom.properties, "a", 1, "r"⟩, ⟨Dom.events, "b", 2, "rw"⟩]) "a" (Value.num 5) =
      some (1, w)) ∧
    dlookup (apply_regs QuecOM.empty
        [⟨Dom.properties, "a", 1, "r"⟩, ⟨Dom.events, "b", 2, "rw"⟩]).items_id 1 = some "a" :=
  C6_roundtrip [⟨Dom.properties, "a", 1, "r"⟩, ⟨Dom.events, "b", 2, "rw"⟩]
    ⟨Dom.properties, "a", 1, "r"⟩ (Value.num 5) (by decide) (by decide) (by decide)

/-! ## AliYunIot: publish formatting (`__data_format`) and `post_data`

The AliYun object model only contributes its two key sets here (membership
tests `k in items["properties"].keys()` / `k in items["events"].keys()`),
so it is embedded as the pair of key lists.  Message params wrap each value
as a dict with `value` and `time`; property params batch into one dict, an
event message carries the single wrapped `(value={}, time)` dict of its
event.  Fresh message ids come from `__get_id` (the counter of the C1
section), allocated first for the batched property message and then for
each event message in insertion order of `event_params`. -/

structure AliOM where
  properties : List String
  events : List String

namespace AliYunIot

structure Wrapped where
  value : Value
  time : Nat

inductive AliParams where
  | props (l : List (String × Wrapped))
  | ev (w : Wrapped)

structure AliMsg where
  id : String
  params : AliParams
  method : String

def fp_step (om : AliOM) (now : Nat)
    (acc : List (String × Wrapped) × List (String × Wrapped)) (kv : String × Value) :
    List (String × Wrapped) × List (String × Wrapped) :=
  if kv.1 ∈ om.properties then
    (dinsert acc.1 kv.1 ⟨kv.2, now⟩, acc.2)
  else if kv.1 ∈ om.events then
    (acc.1, dinsert acc.2 kv.1 ⟨Value.dict [], now⟩)
  else acc

def format_params (om : AliOM) (now : Nat) (data : List (String × Value)) :
    List (String × Wrapped) × List (String × Wrapped) :=
  data.foldl (fp_step om now) ([], [])

def event_topic (pk dk e : String) : String :=
  "/sys/" ++ pk ++ "/" ++ dk ++ "/thing/event/" ++ e ++ "/post"

def property_topic (pk dk : String) : String :=
  "/sys/" ++ pk ++ "/" ++ dk ++ "/thing/event/property/post"

def mk_event_msgs (pk dk : String) :
    Nat → List (String × Wrapped) → List AliMsg × List (String × String) × List String × Nat
  | c, [] => ([], [], [], c)
  | c, (e, w) :: rest =>
    let msg : AliMsg := ⟨Nat.repr c, AliParams.ev w, "thing.event." ++ e ++ ".post"⟩
    let r := mk_event_msgs pk dk (c + 1) rest
    (msg :: r.1, (Nat.repr c, event_topic pk dk e) :: r.2.1, Nat.repr c :: r.2.2.1, r.2.2.2)

structure AliFmt where
  event : List AliMsg
  property : List AliMsg
  msg_ids : List String
  event_topic : List (String × String)

def data_format (om : AliOM) (pk dk : String) (now : Nat) (data : List (String × Value))
    (c : Nat) : AliFmt × Nat :=
  let pp := (format_params om now data).1
  let ep := (format_params om now data).2
  let prop_part : List AliMsg × List String × Nat :=
    if pp.isEmpty then ([], [], c)
    else ([⟨Nat.repr c, AliParams.props pp, "thing.event.property.post"⟩], [Nat.repr c], c + 1)
  let r := mk_event_msgs pk dk prop_part.2.2 ep
  (⟨r.1, prop_part.1, prop_part.2.1 ++ r.2.2.1, r.2.1⟩, r.2.2.2)

def post_data (om : AliOM) (pk dk : String) (now : Nat) (data : List (String × Value))
    (c : Nat) (resolve : String → Bool) : Bool × List (String × AliMsg) × Nat :=
  let fmt := (data_format om pk dk now data c).1
  let published :=
    fmt.property.map (fun m => (property_topic pk dk, m)) ++
    fmt.event.map (fun m => ((dlookup fmt.event_topic m.id).getD "", m))
  let pub_res := fmt.msg_ids.map resolve
  (!pub_res.contains false, published, (data_format om pk dk now data c).2)

theorem format_params_eq (om : AliOM) (now : Nat) :
    ∀ (data : List (String × Value)) (acc1 acc2 : List (String × Wrapped)),
    (data.map Prod.fst).Nodup →
    (∀ kv ∈ data, kv.1 ∉ acc1.map Prod.fst) →
    (∀ kv ∈ data, kv.1 ∉ acc2.map Prod.fst) →
    data.foldl (fp_step om now) (acc1, acc2) =
    (acc1 ++ (data.filter (fun kv => decide (kv.1 ∈ om.properties))).map
        (fun kv => (kv.1, (⟨kv.2, now⟩ : Wrapped))),
     acc2 ++ (data.filter (fun kv =>
        decide (kv.1 ∉ om.properties) && decide (kv.1 ∈ om.events))).map
        (fun kv => (kv.1, (⟨Value.dict [], now⟩ : Wrapped)))) := by
  intro data
  induction data with
  | nil => intro acc1 acc2 _ _ _; simp
  | cons kv rest ih =>
    intro acc1 acc2 hnd h1 h2
    have hndr : (rest.map Prod.fst).Nodup := by
      rw [List.map_cons, List.nodup_cons] at hnd
      exact hnd.2
    have hhead : kv.1 ∉ rest.map Prod.fst := by
      rw [List.map_cons, List.nodup_cons] at hnd
      exact hnd.1
    rw [List.foldl_cons]
    by_cases hprop : kv.1 ∈ om.properties
    · have hins : dinsert acc1 kv.1 (⟨kv.2, now⟩ : Wrapped) = acc1 ++ [(kv.1, ⟨kv.2, now⟩)] :=
        dinsert_of_dlookup_none _ _ _
          (dlookup_eq_none_of_not_mem acc1 kv.1 (h1 kv (List.mem_cons_self kv rest)))
      have hstep : fp_step om now (acc1, acc2) kv = (acc1 ++ [(kv.1, ⟨kv.2, now⟩)], acc2) := by
        rw [fp_step, if_pos hprop, hins]
      rw [hstep]
      rw [ih (acc1 ++ [(kv.1, (⟨kv.2, now⟩ : Wrapped))]) acc2 hndr
        (by
          intro y hy
          simp only [List.map_append, List.mem_append, List.map_cons, List.map_nil,
            List.mem_singleton]
          push_neg
          refine ⟨h1 y (List.mem_cons_of_mem kv hy), ?_⟩
          intro he
          exact hhead (he ▸ List.mem_map_of_mem Prod.fst hy))
        (fun y hy => h2 y (List.mem_cons_of_mem kv hy))]
      simp [List.filter_cons, hprop]
    · by_cases hev : kv.1 ∈ om.events
      · have hins : dinsert acc2 kv.1 (⟨Value.dict [], now⟩ : Wrapped) =
            acc2 ++ [(kv.1, ⟨Value.dict [], now⟩)] :=
          dinsert_of_dlookup_none _ _ _
            (dlookup_eq_none_of_not_mem acc2 kv.1 (h2 kv (List.mem_cons_self kv rest)))
        have hstep : fp_step om now (acc1, acc2) kv =
            (acc1, acc2 ++ [(kv.1, ⟨Value.dict [], now⟩)]) := by
          rw [fp_step, if_neg hprop, if_pos hev, hins]
        rw [hstep]
        rw [ih acc1 (acc2 ++ [(kv.1, (⟨Value.dict [], now⟩ : Wrapped))]) hndr
          (fun y hy => h1 y (List.mem_cons_of_mem kv hy))
          (by
            intro y hy
            simp only [List.map_append, List.mem_append, List.map_cons, List.map_nil,
              List.mem_singleton]
            push_neg
            refine ⟨h2 y (List.mem_cons_of_mem kv hy), ?_⟩
            intro he
            exact hhead (he ▸ List.mem_map_of_mem Prod.fst hy))]
        simp [List.filter_cons, hprop, hev]
      · have hstep : fp_step om now (acc1, acc2) kv = (acc1, acc2) := by
          rw [fp_step, if_neg hprop, if_neg hev]
        rw [hstep]
        rw [ih acc1 acc2 hndr
          (fun y hy => h1 y (List.mem_cons_of_mem kv hy))
          (fun y hy => h2 y (List.mem_cons_of_mem kv hy))]
        simp [List.filter_cons, hprop, hev]

theorem range_repr_succ (c n : Nat) :
    (List.range (n + 1)).map (fun i => Nat.repr (c + i)) =
      Nat.repr c :: (List.range n).map (fun i => Nat.repr (c + 1 + i)) := by
  rw [List.range_succ_eq_map]
  simp only [List.map_cons, List.map_map, Nat.add_zero]
  refine congrArg _ ?_
  apply List.map_congr_left
  intro i _
  simp only [Function.comp, Nat.succ_eq_add_one]
  congr 1
  omega

theorem mk_event_msgs_spec (pk dk : String) : ∀ (ep : List (String × Wrapped)) (c : Nat),
    (mk_event_msgs pk dk c ep).1.map AliMsg.id =
      (List.range ep.length).map (fun i => Nat.repr (c + i)) ∧
    (mk_event_msgs pk dk c ep).1.map AliMsg.method =
      ep.map (fun p => "thing.event." ++ p.1 ++ ".post") ∧
    (mk_event_msgs pk dk c ep).2.2.1 =
      (List.range ep.length).map (fun i => Nat.repr (c + i)) ∧
    (mk_event_msgs pk dk c ep).2.2.2 = c + ep.length ∧
    (mk_event_msgs pk dk c ep).1.length = ep.length := by
  intro ep
  induction ep with
  | nil => intro c; refine ⟨rfl, rfl, rfl, by simp [mk_event_msgs], rfl⟩
  | cons p rest ih =>
    intro c
    obtain ⟨ih1, ih2, ih3, ih4, ih5⟩ := ih (c + 1)
    refine ⟨?_, ?_, ?_, ?_, ?_⟩
    · show Nat.repr c :: (mk_event_msgs pk dk (c + 1) rest).1.map AliMsg.id = _
      rw [ih1, List.length_cons, range_repr_succ]
    · show ("thing.event." ++ p.1 ++ ".post") ::
        (mk_event_msgs pk dk (c + 1) rest).1.map AliMsg.method = _
      rw [ih2]
      rfl
    · show Nat.repr c :: (mk_event_msgs pk dk (c + 1) rest).2.2.1 = _
      rw [ih3, List.length_cons, range_repr_succ]
    · show (mk_event_msgs pk dk (c + 1) rest).2.2.2 = _
      rw [ih4, List.length_cons]
      omega
    · show (mk_event_msgs pk dk (c + 1) rest).1.length + 1 = _
      rw [ih5, List.length_cons]

theorem not_contains_false_iff (ids : List String) (resolve : String → Bool) :
    ((!(ids.map resolve).contains false) = true) ↔ ∀ id ∈ ids, resolve id = true := by
  induction ids with
  | nil => simp
  | cons a rest ih =>
    simp only [List.map_cons, List.contains_cons, Bool.not_or, Bool.and_eq_true,
      Bool.not_eq_true', beq_eq_false_iff_ne, ne_eq, List.mem_cons]
    constructor
    · rintro ⟨ha, hrest⟩
      intro id hid
      rcases hid with rfl | hid
      · cases hr : resolve id
        · exact absurd hr.symm ha
        · rfl
      · exact ih.mp (by simpa using hrest) id hid
    · intro h
      refine ⟨?_, ?_⟩
      · have := h a (Or.inl rfl)
        simp [this]
      · simpa using ih.mpr (fun id hid => h id (Or.inr hid))

end AliYunIot

theorem map_snd_pair {A B : Type} (f : A -> B) (l : List A) :
    l.map (Prod.snd ∘ fun m => (f m, m)) = l := by
  induction l with
  | nil => rfl
  | cons a rest ih =>
    show a :: rest.map (Prod.snd ∘ fun m => (f m, m)) = a :: rest
    rw [ih]

theorem ali_data_format_unfold (om : AliOM) (pk dk : String) (now : Nat)
    (data : List (String × Value)) (c : Nat)
    (hne : (AliYunIot.format_params om now data).1.isEmpty = false) :
    AliYunIot.data_format om pk dk now data c =
      (⟨(AliYunIot.mk_event_msgs pk dk (c + 1) (AliYunIot.format_params om now data).2).1,
        [⟨Nat.repr c, AliYunIot.AliParams.props (AliYunIot.format_params om now data).1,
          "thing.event.property.post"⟩],
        [Nat.repr c] ++
          (AliYunIot.mk_event_msgs pk dk (c + 1) (AliYunIot.format_params om now data).2).2.2.1,
        (AliYunIot.mk_event_msgs pk dk (c + 1) (AliYunIot.format_params om now data).2).2.1⟩,
       (AliYunIot.mk_event_msgs pk dk (c + 1) (AliYunIot.format_params om now data).2).2.2.2) := by
  simp only [AliYunIot.data_format, hne, Bool.false_eq_true, if_false]

/-- Claim C4: for every input record with at least one declared property key
and at least one declared event key (the two declared domains being
disjoint and the record's keys unique, as in a Python dict),
`AliYunIot.post_data` builds exactly one property-post message batching all
property keys and exactly one event-post message per event key, each
message carrying its own freshly allocated id, publishes all of them,
awaits every allocated id, and returns `True` exactly when every awaited id
resolves successfully. -/
theorem C4_post_data (om : AliOM) (pk dk : String) (now : Nat)
    (data : List (String × Value)) (c : Nat) (resolve : String → Bool)
    (hdisj : ∀ k ∈ om.properties, k ∉ om.events)
    (hnd : (data.map Prod.fst).Nodup)
    (hp : ∃ kv ∈ data, kv.1 ∈ om.properties)
    (he : ∃ kv ∈ data, kv.1 ∈ om.events) :
    (AliYunIot.data_format om pk dk now data c).1.property =
      [⟨Nat.repr c, AliYunIot.AliParams.props
        ((data.filter (fun kv => decide (kv.1 ∈ om.properties))).map
          (fun kv => (kv.1, (⟨kv.2, now⟩ : AliYunIot.Wrapped)))),
        "thing.event.property.post"⟩] ∧
    (AliYunIot.data_format om pk dk now data c).1.event.length =
      (data.filter (fun kv => decide (kv.1 ∈ om.events))).length ∧
    (AliYunIot.data_format om pk dk now data c).1.event.map AliYunIot.AliMsg.method =
      (data.filter (fun kv => decide (kv.1 ∈ om.events))).map
        (fun kv => "thing.event." ++ kv.1 ++ ".post") ∧
    (AliYunIot.data_format om pk dk now data c).1.msg_ids =
      (List.range ((data.filter (fun kv => decide (kv.1 ∈ om.events))).length + 1)).map
        (fun i => Nat.repr (c + i)) ∧
    (AliYunIot.data_format om pk dk now data c).1.msg_ids.Nodup ∧
    (AliYunIot.data_format om pk dk now data c).1.property.map AliYunIot.AliMsg.id ++
        (AliYunIot.data_format om pk dk now data c).1.event.map AliYunIot.AliMsg.id =
      (AliYunIot.data_format om pk dk now data c).1.msg_ids ∧
    (AliYunIot.post_data om pk dk now data c resolve).2.1.map Prod.snd =
      (AliYunIot.data_format om pk dk now data c).1.property ++
        (AliYunIot.data_format om pk dk now data c).1.event ∧
    ((AliYunIot.post_data om pk dk now data c resolve).1 = true ↔
      ∀ id ∈ (AliYunIot.data_format om pk dk now data c).1.msg_ids, resolve id = true) := by
  have hfilter2 : data.filter (fun kv =>
      decide (kv.1 ∉ om.properties) && decide (kv.1 ∈ om.events)) =
      data.filter (fun kv => decide (kv.1 ∈ om.events)) := by
    apply List.filter_congr
    intro kv _
    by_cases hev : kv.1 ∈ om.events
    · have hnp : kv.1 ∉ om.properties := fun hpp => hdisj kv.1 hpp hev
      simp [hev, hnp]
    · simp [hev]
  have hfp : AliYunIot.format_params om now data =
      ((data.filter (fun kv => decide (kv.1 ∈ om.properties))).map
        (fun kv => (kv.1, (⟨kv.2, now⟩ : AliYunIot.Wrapped))),
       (data.filter (fun kv => decide (kv.1 ∈ om.events))).map
        (fun kv => (kv.1, (⟨Value.dict [], now⟩ : AliYunIot.Wrapped)))) := by
    rw [AliYunIot.format_params,
      AliYunIot.format_params_eq om now data [] [] hnd (by simp) (by simp), hfilter2]
    simp
  have hppne : (AliYunIot.format_params om now data).1.isEmpty = false := by
    rw [hfp]
    obtain ⟨kv, hkv, hkvp⟩ := hp
    have hmem : kv ∈ data.filter (fun kv => decide (kv.1 ∈ om.properties)) :=
      List.mem_filter.mpr ⟨hkv, by simpa using hkvp⟩
    cases hcase : data.filter (fun kv => decide (kv.1 ∈ om.properties)) with
    | nil => rw [hcase] at hmem; simp at hmem
    | cons a as => rfl
  have hunfold := ali_data_format_unfold om pk dk now data c hppne
  obtain ⟨hid, hmethod, hids, hcount, hlen⟩ :=
    AliYunIot.mk_event_msgs_spec pk dk (AliYunIot.format_params om now data).2 (c + 1)
  have heplen : (AliYunIot.format_params om now data).2.length =
      (data.filter (fun kv => decide (kv.1 ∈ om.events))).length := by
    rw [hfp]
    exact List.length_map _ _
  have hmsgids : (AliYunIot.data_format om pk dk now data c).1.msg_ids =
      (List.range ((data.filter (fun kv => decide (kv.1 ∈ om.events))).length + 1)).map
        (fun i => Nat.repr (c + i)) := by
    rw [hunfold]
    show [Nat.repr c] ++
      (AliYunIot.mk_event_msgs pk dk (c + 1) (AliYunIot.format_params om now data).2).2.2.1 = _
    rw [hids, heplen, AliYunIot.range_repr_succ]
    rfl
  refine ⟨?_, ?_, ?_, hmsgids, ?_, ?_, ?_, ?_⟩
  · rw [hunfold, hfp]
  · rw [hunfold]
    show (AliYunIot.mk_event_msgs pk dk (c + 1) (AliYunIot.format_params om now data).2).1.length = _
    rw [hlen, heplen]
  · rw [hunfold]
    show (AliYunIot.mk_event_msgs pk dk (c + 1)
      (AliYunIot.format_params om now data).2).1.map AliYunIot.AliMsg.method = _
    rw [hmethod, hfp]
    rw [List.map_map]
    rfl
  · rw [hmsgids]
    refine List.Nodup.map ?_ (List.nodup_range _)
    intro a b hab
    have := natRepr_injective hab
    omega
  · rw [hunfold]
    show [Nat.repr c] ++
      (AliYunIot.mk_event_msgs pk dk (c + 1) (AliYunIot.format_params om now data).2).1.map
        AliYunIot.AliMsg.id = _
    rw [hid, hids]
  · simp only [AliYunIot.post_data]
    have hA : (AliYunIot.data_format om pk dk now data c).1.property.map
        (Prod.snd ∘ fun m => (AliYunIot.property_topic pk dk, m)) =
        (AliYunIot.data_format om pk dk now data c).1.property := map_snd_pair _ _
    have hB : (AliYunIot.data_format om pk dk now data c).1.event.map
        (Prod.snd ∘ fun m =>
          ((dlookup (AliYunIot.data_format om pk dk now data c).1.event_topic m.id).getD "", m)) =
        (AliYunIot.data_format om pk dk now data c).1.event := map_snd_pair _ _
    rw [List.map_append, List.map_map, List.map_map, hA, hB]
  · simp only [AliYunIot.post_data]
    exact AliYunIot.not_contains_false_iff _ resolve

/-- Witness for C4: the spec fixture `postData({"p1": 10, "ev1": {}})` with
`p1` a declared property and `ev1` a declared event, every await resolving
successfully; the two allocated ids are the distinct strings "0" and "1". -/
theorem C4_witness :
    (AliYunIot.data_format ⟨["p1"], ["ev1"]⟩ "pk" "dk" 7
        [("p1", Value.num 10), ("ev1", Value.dict [])] 0).1.msg_ids = ["0", "1"] ∧
    (AliYunIot.post_data ⟨["p1"], ["ev1"]⟩ "pk" "dk" 7
        [("p1", Value.num 10), ("ev1", Value.dict [])] 0 (fun _ => true)).1 = true := by
  have h := C4_post_data ⟨["p1"], ["ev1"]⟩ "pk" "dk" 7
      [("p1", Value.num 10), ("ev1", Value.dict [])] 0 (fun _ => true)
      (by decide) (by decide) (by decide) (by decide)
  refine ⟨?_, ?_⟩
  · rw [h.2.2.2.1]
    rfl
  · exact h.2.2.2.2.2.2.2.mpr (fun id _ => rfl)

/-! ## AliOTA: SOTA download/verify/unpack pipeline (`__start_sota`,
`__check_md5`)

`__start_sota` walks `self.__files`; per file it downloads, verifies the MD5
digest of the received bytes against the cloud-declared checksum, and only
then unpacks (`__upgrade`); any failure breaks the loop.  Progress reports
go through `ota_device_progress`.  The per-file environment record carries
the cloud-announced url/md5 together with the outcomes the externals produce
for this file: whether the download succeeds, the digest computed over the
received bytes, and whether the unpack succeeds.  The observable behaviour
is the trace of progress reports and stage invocations. -/

namespace AliOTA

structure OtaFile where
  url : String
  cloudMd5 : String
  dlOk : Bool
  fileMd5 : String
  upOk : Bool
deriving DecidableEq

inductive SotaEv where
  | progress (step : Int) (desc : String)
  | upgrade (idx : Nat)
  | set_update_flag
  | power_restart
deriving DecidableEq

def md5_msg (cloud device : String) : String :=
  "DMP Calc MD5 Value: " ++ cloud ++ ", Device Calc MD5 Value: " ++ device

def check_md5 (cloud device : String) : Bool × List SotaEv :=
  if cloud ≠ device then
    (false, [SotaEv.progress (-3) ("MD5 Verification Failed. " ++ md5_msg cloud device)])
  else (true, [])

def upgrade_ev (idx : Nat) (f : OtaFile) : List SotaEv :=
  SotaEv.upgrade idx :: (if f.upOk then [] else [SotaEv.progress (-4) "Unpack Error"])

def start_sota_loop : List OtaFile → Nat → List SotaEv
  | [], _ => []
  | f :: rest, idx =>
    if f.dlOk then
      let r := check_md5 f.cloudMd5 f.fileMd5
      if r.1 then
        if f.upOk then
          r.2 ++ upgrade_ev idx f ++ start_sota_loop rest (idx + 1)
        else
          r.2 ++ upgrade_ev idx f
      else r.2
    else [SotaEv.progress (-2) "Download File Failed."]

def start_sota (files : List OtaFile) : List SotaEv :=
  start_sota_loop files 0 ++ [SotaEv.set_update_flag, SotaEv.power_restart]

theorem start_sota_loop_md5_fail : ∀ (files : List OtaFile) (j idx : Nat) (f : OtaFile),
    files.get? j = some f → f.dlOk = true → f.cloudMd5 ≠ f.fileMd5 →
    (∀ g ∈ files.take j, g.dlOk = true ∧ g.cloudMd5 = g.fileMd5 ∧ g.upOk = true) →
    SotaEv.progress (-3) ("MD5 Verification Failed. " ++ md5_msg f.cloudMd5 f.fileMd5) ∈
      start_sota_loop files idx ∧
    (∀ m, idx + j ≤ m → SotaEv.upgrade m ∉ start_sota_loop files idx) := by
  intro files
  induction files with
  | nil => intro j idx f hj; simp at hj
  | cons f0 rest ih =>
    intro j idx f hj hdl hmd5 hprev
    cases j with
    | zero =>
      rw [List.get?_cons_zero, Option.some.injEq] at hj
      have hloop : start_sota_loop (f0 :: rest) idx =
          [SotaEv.progress (-3) ("MD5 Verification Failed. " ++ md5_msg f.cloudMd5 f.fileMd5)] := by
        rw [start_sota_loop, hj, if_pos hdl]
        rw [show check_md5 f.cloudMd5 f.fileMd5 =
          (false, [SotaEv.progress (-3)
            ("MD5 Verification Failed. " ++ md5_msg f.cloudMd5 f.fileMd5)]) from by
            rw [check_md5, if_pos hmd5]]
        simp
      rw [hloop]
      refine ⟨List.mem_singleton.mpr rfl, ?_⟩
      intro m _ hm
      rw [List.mem_singleton] at hm
      cases hm
    | succ j =>
      rw [List.get?_cons_succ] at hj
      obtain ⟨h0dl, h0md5, h0up⟩ := hprev f0 (by simp)
      have hprev2 : ∀ g ∈ rest.take j, g.dlOk = true ∧ g.cloudMd5 = g.fileMd5 ∧ g.upOk = true := by
        intro g hg
        exact hprev g (by simp [List.take_cons]; exact Or.inr hg)
      obtain ⟨ihmem, ihnot⟩ := ih j (idx + 1) f hj hdl hmd5 hprev2
      have hchk : check_md5 f0.cloudMd5 f0.fileMd5 = (true, []) := by
        rw [check_md5, if_neg (by simp [h0md5])]
      have hloop : start_sota_loop (f0 :: rest) idx =
          SotaEv.upgrade idx :: start_sota_loop rest (idx + 1) := by
        rw [start_sota_loop, if_pos h0dl]
        rw [hchk]
        simp [h0up, upgrade_ev]
      rw [hloop]
      refine ⟨List.mem_cons_of_mem _ ihmem, ?_⟩
      intro m hm hmem
      rw [List.mem_cons] at hmem
      rcases hmem with heq | hmem
      · have : m = idx := by injection heq
        omega
      · exact ihnot m (by omega) hmem

end AliOTA

/-- Claim C7: for every downloaded image whose server-declared MD5 checksum
differs from the digest computed over the received bytes (all earlier images
of the session having gone through cleanly, so this one is reached and
downloaded), the OTA session reports progress code -3 with a description
containing both checksums, and never invokes the install/unpack stage
(`__upgrade`) for that image. -/
theorem C7_md5_mismatch (files : List AliOTA.OtaFile) (j : Nat) (f : AliOTA.OtaFile)
    (hj : files.get? j = some f) (hdl : f.dlOk = true) (hmd5 : f.cloudMd5 ≠ f.fileMd5)
    (hprev : ∀ g ∈ files.take j, g.dlOk = true ∧ g.cloudMd5 = g.fileMd5 ∧ g.upOk = true) :
    AliOTA.SotaEv.progress (-3)
        ("MD5 Verification Failed. " ++ AliOTA.md5_msg f.cloudMd5 f.fileMd5) ∈
      AliOTA.start_sota files ∧
    AliOTA.SotaEv.upgrade j ∉ AliOTA.start_sota files := by
  obtain ⟨hmem, hnot⟩ := AliOTA.start_sota_loop_md5_fail files j 0 f hj hdl hmd5 hprev
  rw [AliOTA.start_sota]
  constructor
  · exact List.mem_append.mpr (Or.inl hmem)
  · intro hcontra
    rcases List.mem_append.mp hcontra with h | h
    · exact hnot j (by omega) h
    · simp at h

/-- Witness for C7: a two-part session whose first image verifies and
installs cleanly and whose second image downloads but carries a wrong
declared checksum. -/
theorem C7_witness :
    AliOTA.SotaEv.progress (-3)
        ("MD5 Verification Failed. " ++ AliOTA.md5_msg "1111" "2222") ∈
      AliOTA.start_sota [⟨"u1", "aaaa", true, "aaaa", true⟩, ⟨"u2", "1111", true, "2222", true⟩] ∧
    AliOTA.SotaEv.upgrade 1 ∉
      AliOTA.start_sota [⟨"u1", "aaaa", true, "aaaa", true⟩, ⟨"u2", "1111", true, "2222", true⟩] :=
  C7_md5_mismatch [⟨"u1", "aaaa", true, "aaaa", true⟩, ⟨"u2", "1111", true, "2222", true⟩] 1
    ⟨"u2", "1111", true, "2222", true⟩ (by decide) (by decide) (by decide) (by decide)

/-! ## QuecThing: external-MCU flashing loop (`__sota_upgrade_start`)

The loop reads `readsize = min(4096, need_download_size)` bytes per
iteration from `quecIot.mcuFWDataRead` and writes them to the flashing
primitive, decrementing the remaining count and accumulating the download
size; it breaks out (and starts the update) once the accumulated size
reaches `self.__file_size`.  The observable modelled here is the list of
block sizes written. -/

namespace QuecThing

def sota_blocks (fileSize need downloaded : Nat) : List Nat :=
  if need = 0 then [] else
    let readsize := if 4096 > need then need else 4096
    readsize :: (if downloaded + readsize = fileSize then []
      else sota_blocks fileSize (need - readsize) (downloaded + readsize))
termination_by need
decreasing_by
  simp_wf
  split <;> omega

def sota_upgrade_start (fileSize need : Nat) : List Nat :=
  sota_blocks fileSize need 0

def plan_blocks (need : Nat) : List Nat :=
  if need = 0 then [] else min 4096 need :: plan_blocks (need - min 4096 need)
termination_by need
decreasing_by
  simp_wf
  omega

theorem sota_blocks_eq_plan (need : Nat) : ∀ (downloaded fileSize : Nat),
    downloaded + need = fileSize →
    sota_blocks fileSize need downloaded = plan_blocks need := by
  induction need using Nat.strong_induction_on with
  | _ need ih =>
    intro downloaded fileSize hsum
    by_cases h0 : need = 0
    · rw [h0]
      rw [sota_blocks, plan_blocks]
      simp
    · have hmin : (if 4096 > need then need else 4096) = min 4096 need := by
        split <;> omega
      rw [sota_blocks, plan_blocks, if_neg h0, if_neg h0]
      simp only [hmin]
      by_cases hdone : downloaded + min 4096 need = fileSize
      · have hneed : need - min 4096 need = 0 := by omega
        rw [if_pos hdone, hneed]
        rw [plan_blocks]
        simp
      · rw [if_neg hdone]
        refine congrArg _ ?_
        exact ih (need - min 4096 need) (by omega) (downloaded + min 4096 need) fileSize (by omega)

theorem plan_blocks_sum (need : Nat) : (plan_blocks need).sum = need := by
  induction need using Nat.strong_induction_on with
  | _ need ih =>
    by_cases h0 : need = 0
    · rw [h0, plan_blocks]; simp
    · rw [plan_blocks, if_neg h0, List.sum_cons, ih (need - min 4096 need) (by omega)]
      omega

theorem plan_blocks_get (need : Nat) : ∀ (i b : Nat),
    (plan_blocks need).get? i = some b → b = min 4096 (need - 4096 * i) := by
  induction need using Nat.strong_induction_on with
  | _ need ih =>
    intro i b hb
    by_cases h0 : need = 0
    · rw [h0, plan_blocks] at hb
      simp at hb
    · rw [plan_blocks, if_neg h0] at hb
      cases i with
      | zero =>
        rw [List.get?_cons_zero, Option.some.injEq] at hb
        omega
      | succ i =>
        rw [List.get?_cons_succ] at hb
        have := ih (need - min 4096 need) (by omega) i b hb
        omega

theorem plan_blocks_full (need : Nat) : ∀ (i : Nat),
    i + 1 < (plan_blocks need).length → (plan_blocks need).get? i = some 4096 := by
  induction need using Nat.strong_induction_on with
  | _ need ih =>
    intro i hi
    by_cases h0 : need = 0
    · rw [h0, plan_blocks] at hi
      simp at hi
    · by_cases hsmall : need ≤ 4096
      · exfalso
        have hmin : min 4096 need = need := by omega
        have hz : need - min 4096 need = 0 := by omega
        rw [plan_blocks, if_neg h0, hz] at hi
        rw [plan_blocks] at hi
        simp at hi
      · have hmin : min 4096 need = 4096 := by omega
        rw [plan_blocks, if_neg h0] at hi ⊢
        cases i with
        | zero =>
          rw [List.get?_cons_zero, hmin]
        | succ i =>
          rw [List.get?_cons_succ]
          refine ih (need - min 4096 need) (by omega) i ?_
          simpa using hi

end QuecThing

/-- Claim C9: for a declared total byte count supplied to
`QuecThing.__sota_upgrade_start` (the session's `__file_size` matching it,
as set by the download-start event), each block read and written to the
flashing primitive has size `min(4096, remaining)` — every block except
possibly the last is exactly 4096 bytes — and the cumulative size of all
blocks written equals the declared total when the transfer completes. -/
theorem C9_sota_blocks (fileSize need : Nat) (hfs : fileSize = need) :
    (∀ i b, (QuecThing.sota_upgrade_start fileSize need).get? i = some b →
      b = min 4096 (need - 4096 * i)) ∧
    (∀ i, i + 1 < (QuecThing.sota_upgrade_start fileSize need).length →
      (QuecThing.sota_upgrade_start fileSize need).get? i = some 4096) ∧
    (QuecThing.sota_upgrade_start fileSize need).sum = need := by
  have heq : QuecThing.sota_upgrade_start fileSize need = QuecThing.plan_blocks need := by
    rw [QuecThing.sota_upgrade_start]
    exact QuecThing.sota_blocks_eq_plan need 0 fileSize (by omega)
  rw [heq]
  exact ⟨QuecThing.plan_blocks_get need, QuecThing.plan_blocks_full need,
    QuecThing.plan_blocks_sum need⟩

/-- Witness for C9 at a 10000-byte transfer: blocks 4096, 4096, 1808. -/
theorem C9_witness :
    (∀ i b, (QuecThing.sota_upgrade_start 10000 10000).get? i = some b →
      b = min 4096 (10000 - 4096 * i)) ∧
    (∀ i, i + 1 < (QuecThing.sota_upgrade_start 10000 10000).length →
      (QuecThing.sota_upgrade_start 10000 10000).get? i = some 4096) ∧
    (QuecThing.sota_upgrade_start 10000 10000).sum = 10000 :=
  C9_sota_blocks 10000 10000 rfl

/-! ## QuecThing: `post_data` and `__rm_empty_data`

`post_data` iterates over the caller's dict; per key it formats and reports
(object-model report, or the gps/non_gps location reports), awaits the
publish result, and on success executes `v = {}` — which in Python REBINDS
the loop variable and leaves the dict untouched.  `__rm_empty_data`
afterwards deletes the keys whose dict value is falsy; since the dict was
never written, it sees the original values.  The embedding therefore
returns, alongside the loop's boolean result, the final content of the
caller's dict: the original entries filtered by Python truthiness.  The
environment gives the outcome of the n-th report call and of the n-th
result await. -/

namespace QuecThing

def truthy (v : Value) : Bool :=
  match v with
  | Value.num n => n != 0
  | Value.str s => s != ""
  | Value.dict fields => !fields.isEmpty
  | Value.list vs => !vs.isEmpty
  | Value.pynone => false
  | Value.bool b => b

def rm_empty_data (data : List (String × Value)) : List (String × Value) :=
  data.filter (fun kv => truthy kv.2)

structure QuecEnv where
  reportOk : Nat → Bool
  postRes : Nat → Bool

def post_data_loop (om : QuecOM) (env : QuecEnv) : Nat → List (String × Value) → Bool
  | _, [] => true
  | n, (k, v) :: rest =>
    match data_format om k v with
    | some _ =>
      match v with
      | Value.pynone => post_data_loop om env n rest
      | _ =>
        if env.reportOk n then
          (if env.postRes n then post_data_loop om env (n + 1) rest else false)
        else false
    | none =>
      if k = "gps" then
        if env.reportOk n then
          (if env.postRes n then post_data_loop om env (n + 1) rest else false)
        else false
      else if k = "non_gps" then
        if env.reportOk n then
          (if env.postRes n then post_data_loop om env (n + 1) rest else false)
        else false
      else post_data_loop om env n rest

def post_data (om : QuecOM) (env : QuecEnv) (data : List (String × Value)) :
    Bool × List (String × Value) :=
  (post_data_loop om env 0 data, rm_empty_data data)

end QuecThing

/-- Claim C10 names a bug in the code: `QuecThing.post_data` is meant to
replace each successfully posted value by an empty container and then have
`__rm_empty_data` delete it from the caller's dict (its docstring reads
"Remove post success data item from data"), but the statement `v = {}` only
rebinds the Python loop variable and never mutates the dict.  This theorem
evaluates the embedding at the failing input: a declared property `energy`
whose report and await both succeed; `post_data` returns `True` yet the
caller's dict still holds `energy` with its original truthy value, which
`__rm_empty_data` therefore keeps. -/
theorem C10_posted_entry_not_removed :
    QuecThing.post_data
      ⟨[], [("energy", ⟨4, "r", []⟩)], []⟩
      ⟨fun _ => true, fun _ => true⟩
      [("energy", Value.num 100)] =
    (true, [("energy", Value.num 100)]) := rfl

/-! ## AliOTA: archive unpack stage (`__upgrade`, `__get_file_size`,
`__get_file_name`)

The decompressed stream (`unzipFp`) is modelled as the byte list it yields;
`read(n)` takes the next `n` bytes (fewer at end of stream).  Each loop
iteration reads a 0x200-byte header; `data[124:135]` is the ASCII-octal
size field and `data[:100]` the NUL-padded name (both decoded and
right-stripped of NULs; a decode or octal-parse failure is the exception
path of the surrounding `try`, modelled as `none`).  Zero size with a
non-empty name creates a directory under the staging root
`/usr/.updater/usr/`; zero size with an empty name ends the archive; a
positive size streams that many bytes (in chunks of at most 0x200, the
chunk size clamped to the remainder) into the staging path and appends
`("/usr/" + name, size)` to the manifest `file_list`, which
`update_download_stat` then registers pairing the staged copy
(`"/usr/.updater" + path`) with the same size. -/

theorem char_ofNat_toNat (c : Char) (h : c.toNat < 55296) : Char.ofNat c.toNat = c := by
  have hv : Nat.isValidChar c.toNat := Or.inl h
  apply Char.eq_of_val_eq
  rw [Char.ofNat, dif_pos hv]
  apply UInt32.eq_of_toBitVec_eq
  apply BitVec.eq_of_toNat_eq
  rfl

namespace AliOTA

def rstrip0 (l : List Nat) : List Nat :=
  (l.reverse.dropWhile (fun b => b == 0)).reverse

def get_file_size (data : List Nat) : Option Nat :=
  if data.all (fun b => b ≤ 127) then
    if (rstrip0 data).isEmpty then some 0
    else if (rstrip0 data).all (fun b => decide (48 ≤ b) && decide (b ≤ 55)) then
      some ((rstrip0 data).foldl (fun acc d => acc * 8 + (d - 48)) 0)
    else none
  else none

def get_file_name (name : List Nat) : Option String :=
  if name.all (fun b => b ≤ 127) then
    some (String.mk ((rstrip0 name).map Char.ofNat))
  else none

def updater_dir : String := "/usr/.updater/usr/"

structure UpgradeSt where
  dirs : List String
  files : List (String × List Nat)
  manifest : List (String × Nat)
deriving DecidableEq

def write_chunks (read_size last_size : Nat) (rem : List Nat) : List Nat × List Nat :=
  if h0 : last_size = 0 then ([], rem)
  else if hr : read_size = 0 then ([], rem)
  else
    let rsz := if read_size ≤ last_size then read_size else last_size
    let r := write_chunks rsz (last_size - rsz) (rem.drop rsz)
    (rem.take rsz ++ r.1, r.2)
termination_by last_size
decreasing_by
  simp_wf
  split <;> omega

theorem write_chunks_rem_le (ls : Nat) : ∀ (rs : Nat) (rem : List Nat),
    ((write_chunks rs ls rem).2).length ≤ rem.length := by
  induction ls using Nat.strong_induction_on with
  | _ ls ih =>
    intro rs rem
    by_cases h0 : ls = 0
    · rw [write_chunks, dif_pos h0]
    · by_cases hr : rs = 0
      · rw [write_chunks, dif_neg h0, dif_pos hr]
      · rw [write_chunks, dif_neg h0, dif_neg hr]
        have hrsz1 : 1 ≤ (if rs ≤ ls then rs else ls) := by split <;> omega
        have hlt : ls - (if rs ≤ ls then rs else ls) < ls := by omega
        have h1 := ih (ls - (if rs ≤ ls then rs else ls)) hlt
          (if rs ≤ ls then rs else ls) (rem.drop (if rs ≤ ls then rs else ls))
        have h2 : (rem.drop (if rs ≤ ls then rs else ls)).length ≤ rem.length := by
          rw [List.length_drop]
          omega
        exact le_trans h1 h2

def upgrade_loop (rem : List Nat) (st : UpgradeSt) : Option UpgradeSt :=
  if hdata : (rem.take 512).isEmpty then some st
  else
    match get_file_size (((rem.take 512).drop 124).take 11),
          get_file_name ((rem.take 512).take 100) with
    | some size, some file_name =>
      if size = 0 then
        if file_name.length ≠ 0 then
          upgrade_loop (rem.drop 512)
            { st with dirs := st.dirs ++ [updater_dir ++ file_name] }
        else some st
      else
        upgrade_loop (write_chunks 512 size (rem.drop 512)).2
          { st with
            files := st.files ++ [(updater_dir ++ file_name,
              (write_chunks 512 size (rem.drop 512)).1)],
            manifest := st.manifest ++ [("/usr/" ++ file_name, size)] }
    | _, _ => none
termination_by rem.length
decreasing_by
  · have hne : rem ≠ [] := by
      intro h
      rw [h] at hdata
      simp at hdata
    have hpos : 0 < rem.length := List.length_pos.mpr hne
    rw [List.length_drop]
    omega
  · have hne : rem ≠ [] := by
      intro h
      rw [h] at hdata
      simp at hdata
    have hpos : 0 < rem.length := List.length_pos.mpr hne
    have h1 := write_chunks_rem_le size 512 (rem.drop 512)
    rw [List.length_drop] at h1
    omega

def upgrade (stream : List Nat) : Option UpgradeSt :=
  upgrade_loop stream ⟨[], [], []⟩

/-! Synthetic well-formed archives.  `encode_entry` lays out one entry the
way `__upgrade` consumes the stream: a 512-byte header whose first 100
bytes are the NUL-padded name and whose bytes 124..134 are the ASCII-octal
size, followed directly by `size` payload bytes; the archive ends with an
all-zero header. -/

def zeros (n : Nat) : List Nat := List.replicate n 0

def oct_bytes (s : Nat) : List Nat := ((Nat.digits 8 s).map (fun d => d + 48)).reverse

def name_bytes (s : String) : List Nat := s.data.map Char.toNat

def name_field (nm : String) : List Nat :=
  name_bytes nm ++ zeros (100 - (name_bytes nm).length)

def size_field (s : Nat) : List Nat :=
  oct_bytes s ++ zeros (11 - (oct_bytes s).length)

def tar_header (nm : String) (s : Nat) : List Nat :=
  name_field nm ++ zeros 24 ++ size_field s ++ zeros 377

structure TarEntry where
  name : String
  size : Nat
  payload : List Nat

def encode_entry (e : TarEntry) : List Nat := tar_header e.name e.size ++ e.payload

def end_marker : List Nat := zeros 512

def encode_archive (es : List TarEntry) : List Nat :=
  (es.map encode_entry).flatten ++ end_marker

def wf_entry (e : TarEntry) : Prop :=
  e.name.data ≠ [] ∧ (∀ c ∈ e.name.data, 0 < c.toNat ∧ c.toNat ≤ 127) ∧
  e.name.data.length ≤ 100 ∧ e.size < 8 ^ 11 ∧ e.payload.length = e.size

theorem dropWhile_zeros_append (n : Nat) (t : List Nat) :
    (zeros n ++ t).dropWhile (fun b => b == 0) = t.dropWhile (fun b => b == 0) := by
  induction n with
  | zero => simp [zeros]
  | succ n ih =>
    rw [zeros, List.replicate_succ, List.cons_append, List.dropWhile_cons]
    simpa [zeros] using ih

theorem rstrip0_append_zeros (l : List Nat) (n : Nat) :
    rstrip0 (l ++ zeros n) = rstrip0 l := by
  rw [rstrip0, rstrip0, List.reverse_append]
  have hz : (zeros n).reverse = zeros n := by
    simp [zeros, List.reverse_replicate]
  rw [hz, dropWhile_zeros_append]

theorem rstrip0_of_all_ne (l : List Nat) (h : ∀ b ∈ l, b ≠ 0) : rstrip0 l = l := by
  rw [rstrip0]
  have hdw : l.reverse.dropWhile (fun b => b == 0) = l.reverse := by
    cases hrev : l.reverse with
    | nil => rfl
    | cons a t =>
      have ha : a ∈ l := by
        have hmem : a ∈ l.reverse := by
          rw [hrev]
          exact List.mem_cons_self a t
        exact List.mem_reverse.mp hmem
      rw [List.dropWhile_cons]
      simp [h a ha]
  rw [hdw, List.reverse_reverse]

theorem oct_bytes_mem (s : Nat) : ∀ b ∈ oct_bytes s, 48 ≤ b ∧ b ≤ 55 := by
  intro b hb
  rw [oct_bytes, List.mem_reverse, List.mem_map] at hb
  obtain ⟨d, hd, rfl⟩ := hb
  have : d < 8 := Nat.digits_lt_base (by norm_num) hd
  omega

theorem foldl_oct_digits (L : List Nat) : ∀ a : Nat,
    ((L.map (fun d => d + 48)).reverse).foldl (fun acc d => acc * 8 + (d - 48)) a =
      a * 8 ^ L.length + Nat.ofDigits 8 L := by
  induction L with
  | nil =>
    intro a
    simp [Nat.ofDigits]
  | cons d t ih =>
    intro a
    rw [List.map_cons, List.reverse_cons, List.foldl_append, ih a]
    simp only [List.foldl_cons, List.foldl_nil]
    rw [Nat.ofDigits_cons, List.length_cons, pow_succ]
    have hd : d + 48 - 48 = d := by omega
    rw [hd]
    ring

theorem oct_decode (s : Nat) :
    (oct_bytes s).foldl (fun acc d => acc * 8 + (d - 48)) 0 = s := by
  rw [oct_bytes, foldl_oct_digits (Nat.digits 8 s) 0]
  simp [Nat.ofDigits_digits]

theorem get_file_size_field (s : Nat) : get_file_size (size_field s) = some s := by
  have hall : (size_field s).all (fun b => decide (b ≤ 127)) = true := by
    rw [List.all_eq_true]
    intro b hb
    rw [size_field, List.mem_append] at hb
    rcases hb with hb | hb
    · have := oct_bytes_mem s b hb
      simp
      omega
    · have hb0 : b = 0 := List.eq_of_mem_replicate (by simpa [zeros] using hb)
      simp [hb0]
  have hstrip : rstrip0 (size_field s) = oct_bytes s := by
    rw [size_field, rstrip0_append_zeros]
    exact rstrip0_of_all_ne _ (fun b hb => by have := oct_bytes_mem s b hb; omega)
  by_cases h0 : s = 0
  · subst h0
    have hoct : oct_bytes 0 = [] := by simp [oct_bytes]
    rw [get_file_size]
    rw [if_pos hall, hstrip, hoct]
    rfl
  · have hoct : oct_bytes s ≠ [] := by
      rw [oct_bytes]
      simp only [ne_eq, List.reverse_eq_nil_iff, List.map_eq_nil_iff]
      exact Nat.digits_ne_nil_iff_ne_zero.mpr h0
    rw [get_file_size, if_pos hall, hstrip]
    rw [if_neg (by simpa using hoct)]
    rw [if_pos (by
      rw [List.all_eq_true]
      intro b hb
      have := oct_bytes_mem s b hb
      simp
      omega)]
    rw [oct_decode]

theorem get_file_name_field (nm : String)
    (hchars : ∀ c ∈ nm.data, 0 < c.toNat ∧ c.toNat ≤ 127) :
    get_file_name (name_field nm) = some nm := by
  have hall : (name_field nm).all (fun b => decide (b ≤ 127)) = true := by
    rw [List.all_eq_true]
    intro b hb
    rw [name_field, List.mem_append] at hb
    rcases hb with hb | hb
    · rw [name_bytes, List.mem_map] at hb
      obtain ⟨c, hc, rfl⟩ := hb
      simpa using (hchars c hc).2
    · have hb0 : b = 0 := List.eq_of_mem_replicate (by simpa [zeros] using hb)
      simp [hb0]
  have hstrip : rstrip0 (name_field nm) = name_bytes nm := by
    rw [name_field, rstrip0_append_zeros]
    refine rstrip0_of_all_ne _ ?_
    intro b hb
    rw [name_bytes, List.mem_map] at hb
    obtain ⟨c, hc, rfl⟩ := hb
    have := (hchars c hc).1
    omega
  rw [get_file_name, if_pos hall, hstrip]
  have hmap : (name_bytes nm).map Char.ofNat = nm.data := by
    rw [name_bytes, List.map_map]
    have hpt : nm.data.map (Char.ofNat ∘ Char.toNat) = nm.data.map id := by
      apply List.map_congr_left
      intro c hc
      have hle : c.toNat < 55296 := by
        have := (hchars c hc).2
        omega
      simpa [Function.comp] using char_ofNat_toNat c hle
    rw [hpt, List.map_id]
  rw [hmap]

theorem name_field_length (nm : String) (h : nm.data.length ≤ 100) :
    (name_field nm).length = 100 := by
  have hnb : (name_bytes nm).length = nm.data.length := by
    rw [name_bytes, List.length_map]
  rw [name_field, List.length_append, hnb, zeros, List.length_replicate]
  omega

theorem oct_bytes_length_le (s : Nat) (h : s < 8 ^ 11) : (oct_bytes s).length ≤ 11 := by
  rw [oct_bytes, List.length_reverse, List.length_map]
  by_cases h0 : s = 0
  · subst h0
    simp
  · rw [Nat.digits_len 8 s (by norm_num) h0]
    have := Nat.log_lt_of_lt_pow h0 h
    omega

theorem size_field_length (s : Nat) (h : s < 8 ^ 11) : (size_field s).length = 11 := by
  have := oct_bytes_length_le s h
  rw [size_field, List.length_append, zeros, List.length_replicate]
  omega

theorem tar_header_length (nm : String) (s : Nat) (hn : nm.data.length ≤ 100)
    (hs : s < 8 ^ 11) : (tar_header nm s).length = 512 := by
  rw [tar_header]
  rw [List.length_append, List.length_append, List.length_append]
  rw [name_field_length nm hn, size_field_length s hs]
  simp only [zeros, List.length_replicate]

theorem tar_header_take_100 (nm : String) (s : Nat) (hn : nm.data.length ≤ 100) :
    (tar_header nm s).take 100 = name_field nm := by
  rw [tar_header, List.append_assoc, List.append_assoc]
  exact List.take_left' (name_field_length nm hn)

theorem tar_header_size_slice (nm : String) (s : Nat) (hn : nm.data.length ≤ 100)
    (hs : s < 8 ^ 11) :
    (((tar_header nm s).drop 124).take 11) = size_field s := by
  have h124 : (name_field nm ++ zeros 24).length = 124 := by
    rw [List.length_append, name_field_length nm hn]
    simp only [zeros, List.length_replicate]
  have hdrop : (tar_header nm s).drop 124 = size_field s ++ zeros 377 := by
    rw [tar_header, List.append_assoc]
    exact List.drop_left' h124
  rw [hdrop]
  exact List.take_left' (size_field_length s hs)

theorem write_chunks_exact (ls : Nat) : ∀ (rs : Nat) (payload rest : List Nat),
    0 < rs → payload.length = ls → write_chunks rs ls (payload ++ rest) = (payload, rest) := by
  induction ls using Nat.strong_induction_on with
  | _ ls ih =>
    intro rs payload rest hrs hlen
    by_cases h0 : ls = 0
    · subst h0
      have hp : payload = [] := List.length_eq_zero.mp hlen
      subst hp
      rw [write_chunks]
      simp
    · rw [write_chunks, dif_neg h0, dif_neg (by omega : ¬rs = 0)]
      have hrsz_le : (if rs ≤ ls then rs else ls) ≤ ls := by split <;> omega
      have hrsz_pos : 1 ≤ (if rs ≤ ls then rs else ls) := by split <;> omega
      have hsub : (if rs ≤ ls then rs else ls) - payload.length = 0 := by omega
      have htake : (payload ++ rest).take (if rs ≤ ls then rs else ls) =
          payload.take (if rs ≤ ls then rs else ls) := by
        rw [List.take_append_eq_append_take, hsub]
        simp
      have hdrop : (payload ++ rest).drop (if rs ≤ ls then rs else ls) =
          payload.drop (if rs ≤ ls then rs else ls) ++ rest := by
        rw [List.drop_append_eq_append_drop, hsub]
        simp
      simp only [htake, hdrop]
      rw [ih (ls - (if rs ≤ ls then rs else ls)) (by omega) (if rs ≤ ls then rs else ls)
        (payload.drop (if rs ≤ ls then rs else ls)) rest (by omega)
        (by rw [List.length_drop]; omega)]
      rw [List.take_append_drop]

theorem upgrade_loop_entry (rem : List Nat) (st : UpgradeSt) (size : Nat) (file_name : String)
    (hne : ¬((rem.take 512).isEmpty = true))
    (hsz : get_file_size (((rem.take 512).drop 124).take 11) = some size)
    (hnm : get_file_name ((rem.take 512).take 100) = some file_name) :
    upgrade_loop rem st =
      if size = 0 then
        if file_name.length ≠ 0 then
          upgrade_loop (rem.drop 512)
            { st with dirs := st.dirs ++ [updater_dir ++ file_name] }
        else some st
      else
        upgrade_loop (write_chunks 512 size (rem.drop 512)).2
          { st with
            files := st.files ++ [(updater_dir ++ file_name,
              (write_chunks 512 size (rem.drop 512)).1)],
            manifest := st.manifest ++ [("/usr/" ++ file_name, size)] } := by
  rw [upgrade_loop, dif_neg hne, hsz, hnm]

theorem upgrade_loop_end (extra : List Nat) (st : UpgradeSt) :
    upgrade_loop (end_marker ++ extra) st = some st := by
  have htake : (end_marker ++ extra).take 512 = end_marker :=
    List.take_left' (by rw [end_marker, zeros, List.length_replicate])
  have hne : ¬(((end_marker ++ extra).take 512).isEmpty = true) := by
    rw [htake]
    decide
  have hsz : get_file_size ((((end_marker ++ extra).take 512).drop 124).take 11) = some 0 := by
    rw [htake]
    rfl
  have hnm : get_file_name (((end_marker ++ extra).take 512).take 100) = some "" := by
    rw [htake]
    rfl
  rw [upgrade_loop_entry (end_marker ++ extra) st 0 "" hne hsz hnm]
  simp

theorem upgrade_loop_spec : ∀ (es : List TarEntry) (extra : List Nat) (st : UpgradeSt),
    (∀ e ∈ es, wf_entry e) →
    upgrade_loop ((es.map encode_entry).flatten ++ (end_marker ++ extra)) st = some
      ⟨st.dirs ++ (es.filter (fun e => decide (e.size = 0))).map
        (fun e => updater_dir ++ e.name),
       st.files ++ (es.filter (fun e => decide (0 < e.size))).map
        (fun e => (updater_dir ++ e.name, e.payload)),
       st.manifest ++ (es.filter (fun e => decide (0 < e.size))).map
        (fun e => ("/usr/" ++ e.name, e.size))⟩ := by
  intro es
  induction es with
  | nil =>
    intro extra st _
    simp only [List.map_nil, List.flatten_nil, List.nil_append, List.filter_nil,
      List.map_nil, List.append_nil]
    exact upgrade_loop_end extra st
  | cons e rest ih =>
    intro extra st hwf
    obtain ⟨hnmne, hchars, hnlen, hslt, hplen⟩ := hwf e (List.mem_cons_self e rest)
    have hwfr : ∀ x ∈ rest, wf_entry x := fun x hx => hwf x (List.mem_cons_of_mem e hx)
    have hhdr : (tar_header e.name e.size).length = 512 := tar_header_length _ _ hnlen hslt
    have hstream : ((e :: rest).map encode_entry).flatten ++ (end_marker ++ extra) =
        tar_header e.name e.size ++
          (e.payload ++ ((rest.map encode_entry).flatten ++ (end_marker ++ extra))) := by
      simp only [List.map_cons, List.flatten_cons, encode_entry, List.append_assoc]
    have htake : (tar_header e.name e.size ++
        (e.payload ++ ((rest.map encode_entry).flatten ++ (end_marker ++ extra)))).take 512 =
        tar_header e.name e.size := List.take_left' hhdr
    have hdropS : (tar_header e.name e.size ++
        (e.payload ++ ((rest.map encode_entry).flatten ++ (end_marker ++ extra)))).drop 512 =
        e.payload ++ ((rest.map encode_entry).flatten ++ (end_marker ++ extra)) :=
      List.drop_left' hhdr
    have hne : ¬(((tar_header e.name e.size ++
        (e.payload ++ ((rest.map encode_entry).flatten ++ (end_marker ++ extra)))).take 512).isEmpty
          = true) := by
      rw [htake]
      intro hemp
      rw [List.isEmpty_iff] at hemp
      rw [hemp] at hhdr
      simp at hhdr
    have hsz : get_file_size ((((tar_header e.name e.size ++
        (e.payload ++ ((rest.map encode_entry).flatten ++ (end_marker ++ extra)))).take 512).drop
          124).take 11) = some e.size := by
      rw [htake, tar_header_size_slice _ _ hnlen hslt, get_file_size_field]
    have hnm : get_file_name (((tar_header e.name e.size ++
        (e.payload ++ ((rest.map encode_entry).flatten ++ (end_marker ++ extra)))).take 512).take
          100) = some e.name := by
      rw [htake, tar_header_take_100 _ _ hnlen, get_file_name_field _ hchars]
    rw [hstream, upgrade_loop_entry _ st e.size e.name hne hsz hnm]
    by_cases hzero : e.size = 0
    · rw [if_pos hzero]
      have hnamelen : e.name.length ≠ 0 := by
        intro hcon
        apply hnmne
        have : e.name.data.length = 0 := hcon
        exact List.length_eq_zero.mp this
      rw [if_pos hnamelen, hdropS]
      have hpempty : e.payload = [] := List.length_eq_zero.mp (by omega)
      rw [hpempty, List.nil_append]
      rw [ih extra { st with dirs := st.dirs ++ [updater_dir ++ e.name] } hwfr]
      simp only [List.filter_cons, hzero, decide_True, List.map_cons, List.append_assoc]
      have hnot : decide (0 < e.size) = false := by
        simp [hzero]
      simp [hnot, hzero]
    · rw [if_neg hzero]
      rw [hdropS]
      have hwc := write_chunks_exact e.size 512 e.payload
        ((rest.map encode_entry).flatten ++ (end_marker ++ extra)) (by omega) hplen
      rw [hwc]
      rw [ih extra { st with
        files := st.files ++ [(updater_dir ++ e.name, e.payload)],
        manifest := st.manifest ++ [("/usr/" ++ e.name, e.size)] } hwfr]
      have hpos : decide (0 < e.size) = true := by
        simp
        omega
      simp [List.filter_cons, hpos, hzero, List.append_assoc]

end AliOTA

/-- Claim C8: for every well-formed archive stream processed by the unpack
stage (entries with printable ASCII names of at most 100 characters, sizes
below 8^11, and payloads of exactly the declared size, followed by an
all-zero end marker and arbitrary trailing bytes): an entry whose
ASCII-octal size field decodes to zero and whose name is non-empty creates
a directory under the staging root and processing continues; the zero-size
empty-name marker terminates the unpack loop (the trailing bytes are never
consumed); and an entry of size `s > 0` with name `n` writes exactly its
`s` payload bytes to the staging path for `n` and appends one manifest
record pairing `"/usr/" + n` — the path the staged copy
`"/usr/.updater" + ("/usr/" + n)` is registered under — with `s`. -/
theorem C8_upgrade (es : List AliOTA.TarEntry) (extra : List Nat)
    (hwf : ∀ e ∈ es, AliOTA.wf_entry e) :
    AliOTA.upgrade (AliOTA.encode_archive es ++ extra) = some
      ⟨(es.filter (fun e => decide (e.size = 0))).map
        (fun e => AliOTA.updater_dir ++ e.name),
       (es.filter (fun e => decide (0 < e.size))).map
        (fun e => (AliOTA.updater_dir ++ e.name, e.payload)),
       (es.filter (fun e => decide (0 < e.size))).map
        (fun e => ("/usr/" ++ e.name, e.size))⟩ := by
  rw [AliOTA.upgrade, AliOTA.encode_archive, List.append_assoc]
  have h := AliOTA.upgrade_loop_spec es extra ⟨[], [], []⟩ hwf
  simpa using h

/-- Witness for C8 on the spec fixture: directory entry (name "sub/",
size 0), file entry (name "sub/a.txt", size 5, payload "hello"), end
marker — one directory, one 5-byte file, a manifest with one 5-byte
entry. -/
theorem C8_witness :
    AliOTA.upgrade (AliOTA.encode_archive
        [⟨"sub/", 0, []⟩, ⟨"sub/a.txt", 5, [104, 101, 108, 108, 111]⟩] ++ []) =
      some ⟨["/usr/.updater/usr/sub/"],
        [("/usr/.updater/usr/sub/a.txt", [104, 101, 108, 108, 111])],
        [("/usr/sub/a.txt", 5)]⟩ := by
  rw [C8_upgrade [⟨"sub/", 0, []⟩, ⟨"sub/a.txt", 5, [104, 101, 108, 108, 111]⟩] []
    (by
      intro e he
      rcases List.mem_cons.mp he with rfl | he2
      · exact ⟨by decide, by decide, by decide, by decide, rfl⟩
      · rcases List.mem_cons.mp he2 with rfl | he3
        · exact ⟨by decide, by decide, by decide, by decide, rfl⟩
        · cases he3)]
  rfl
